import Mathlib

/-!
Verification of the structural pattern-detection core of the
`agentic-workflow` repository: the sequence-pattern detector
(`detect_pattern` in `src/execution/extract_sheet_structure.py`) and the
formula-range analyzer (`normalize_formula`, `analyze_formula_ranges` and
the flow annotation in `src/execution/analyze_sheet_structure.py`).

Machine integers and floats are modelled exactly: the Python comparisons
`m >= b * 0.7`, `d > n * 0.7` and `c > n * 0.3` are embedded as the exact
rational comparisons `7 * b <= 10 * m`, `7 * n < 10 * d` and
`3 * n < 10 * c`.  (For the block counts arising from in-memory lists the
IEEE-double comparison agrees with the exact rational one: `0.7` rounds
below `7/10`, and an integer can never fall strictly between `b * 0.7`
rounded to double and `7*b/10` for any list-sized `b`; the concrete
threshold cases relevant to the claims, e.g. `2 >= 3 * 0.7` being false,
were checked against CPython semantics.)

Python `str` truthiness (`if v:`) is `v ≠ None ∧ v ≠ ""`; `\d`, `[A-Z]`
and `str.isdigit` are modelled over the ASCII ranges the sheet data uses.
-/

namespace SheetStruct

/-- ASCII decimal digit, the `\d` / `str.isdigit` character class. -/
def isDig (c : Char) : Bool := '0' ≤ c && c ≤ '9'

/-- ASCII uppercase letter, the `[A-Z]` character class. -/
def isUp (c : Char) : Bool := 'A' ≤ c && c ≤ 'Z'

/-- Whitespace as used by Python `str.split()` (ASCII part). -/
def isWs (c : Char) : Bool :=
  c = ' ' || c = '\t' || c = '\n' || c = '\r' || c = '\x0b' || c = '\x0c'

/-! ### `is_date` (extract_sheet_structure.py lines 56-66)

Each regex `re.match(p, s)` with an anchored pattern over the disjoint
character classes digit / `/` / `-` is a deterministic maximal-munch
parse, implemented below directly on the character list. -/

/-- Consume `\d{1,2}`: one digit, then at most one more (greedy; since the
following literal is never a digit, maximal munch equals the regex). -/
def dd : List Char → Option (List Char)
  | c1 :: rest =>
    if isDig c1 then
      match rest with
      | c2 :: r2 => if isDig c2 then some r2 else some rest
      | [] => some []
    else none
  | [] => none

/-- Consume exactly `\d{2}`. -/
def d2 : List Char → Option (List Char)
  | c1 :: c2 :: r => if isDig c1 && isDig c2 then some r else none
  | _ => none

/-- Consume exactly `\d{4}`. -/
def d4 : List Char → Option (List Char)
  | c1 :: c2 :: c3 :: c4 :: r =>
    if isDig c1 && isDig c2 && isDig c3 && isDig c4 then some r else none
  | _ => none

/-- Consume a literal character. -/
def lit (c : Char) : List Char → Option (List Char)
  | c' :: r => if c' = c then some r else none
  | [] => none

/-- `^\d{1,2}/\d{1,2}/\d{4}$` -/
def datePat1 (l : List Char) : Bool :=
  (do
    let r1 ← dd l
    let r2 ← lit '/' r1
    let r3 ← dd r2
    let r4 ← lit '/' r3
    let r5 ← d4 r4
    if r5 = [] then some () else none).isSome

/-- `^\d{4}-\d{2}-\d{2}$` -/
def datePat2 (l : List Char) : Bool :=
  (do
    let r1 ← d4 l
    let r2 ← lit '-' r1
    let r3 ← d2 r2
    let r4 ← lit '-' r3
    let r5 ← d2 r4
    if r5 = [] then some () else none).isSome

/-- `^\d{1,2}-\d{1,2}-\d{4}$` -/
def datePat3 (l : List Char) : Bool :=
  (do
    let r1 ← dd l
    let r2 ← lit '-' r1
    let r3 ← dd r2
    let r4 ← lit '-' r3
    let r5 ← d4 r4
    if r5 = [] then some () else none).isSome

/-- `is_date`: empty strings are rejected, otherwise any of the three
date regexes must match the whole string. -/
def is_date (value : String) : Bool :=
  if value = "" then false
  else datePat1 value.data || datePat2 value.data || datePat3 value.data

/-- The numeric-shape test of `detect_pattern`
(`val.replace('.', '').replace('-', '').isdigit()`): after removing every
`.` and `-` the remainder is non-empty and all digits. -/
def isNumberLike (s : String) : Bool :=
  let t := s.data.filter (fun c => !(c = '.' || c = '-'))
  !t.isEmpty && t.all isDig

/-- Template entry for one value (extract_sheet_structure.py lines
104-111 and 119-125): date shapes map to `"<date>"`, numeric shapes to
`"<number>"`, anything else to the literal value. -/
def classify (v : String) : String :=
  if is_date v then "<date>"
  else if v ≠ "" && isNumberLike v then "<number>"
  else v

/-! ### Result model for `detect_pattern` -/

/-- A block that failed to match the dominant template (the dictionaries
appended to `breaks`, lines 130-135). -/
structure BreakEntry where
  block_index : Nat
  position : Nat
  expected_template : List String
  actual_values : List String
  deriving Repr, DecidableEq

/-- The tagged result dictionary of `detect_pattern`.  The `breaks` field
of the `repeating` variant is an `Option` because the Python code adds the
`"breaks"` key only when the list is non-empty (lines 148-149). -/
inductive PatternResult where
  | empty : PatternResult
  | allEmpty (count : Nat) : PatternResult
  | single (value : String) : PatternResult
  | uniform (value : String) (count : Nat) : PatternResult
  | repeating (block_size : Nat) (template : List String) (repeat_count : Nat)
      (total_items : Nat) (sample_first_block : List String)
      (breaks : Option (List BreakEntry)) : PatternResult
  | dateSequence (count : Nat) (first : String) (last : String)
      (sample : List String) : PatternResult
  | variedWithPfx (common_pfx : String) (pfx_count : Nat) (total : Nat)
      (sample : List String) : PatternResult
  | listKind (values : List String) (total : Nat) : PatternResult
  | varied (unique_count : Nat) (total : Nat) (sample : List String) : PatternResult
  deriving Repr, DecidableEq

/-- Truthiness filter `[v for v in values if v]`: drop `None` and `""`. -/
def nonEmptyOf (values : List (Option String)) : List String :=
  values.filterMap (fun o => match o with
    | some s => if s = "" then none else some s
    | none => none)

/-! ### Repeating-block search (lines 91-151) -/

/-- Fuel-driven version of the chunking loop
`for i in range(0, len, b): block = l[i:i+b]; if len(block) == b: append`:
consecutive complete chunks of size `b`, a trailing partial chunk dropped.
The fuel only makes the recursion structural; `l.length` is always
enough fuel because each step removes `b ≥ 1` elements. -/
def ccGo (b : Nat) : Nat → List String → List (List String)
  | 0, _ => []
  | fuel + 1, l =>
    if 1 ≤ b ∧ b ≤ l.length then l.take b :: ccGo b fuel (l.drop b) else []

/-- Complete consecutive chunks of size `b` of `l`. -/
def completeChunks (b : Nat) (l : List String) : List (List String) :=
  ccGo b l.length l

/-- The break-collection loop
`for idx, block in enumerate(blocks[1:], start=1)` restricted to the
non-matching blocks; `j` is the running block index. -/
def mkBreaks (tpl : List String) (b : Nat) : Nat → List (List String) → List BreakEntry
  | _, [] => []
  | j, c :: cs =>
    if c.map classify = tpl then mkBreaks tpl b (j + 1) cs
    else ⟨j, j * b, tpl, c⟩ :: mkBreaks tpl b (j + 1) cs

/-- One iteration of the block-size loop body (lines 93-151): `none`
means `continue` (fewer than 2 complete blocks, or the 70% threshold
fails), `some` is the returned `repeating` dictionary. -/
def attemptBlock (ne : List String) (b : Nat) : Option PatternResult :=
  let bl := completeChunks b ne
  if bl.length < 2 then none
  else
    let tpl := (bl.headD []).map classify
    let matching := 1 + (bl.tail.countP (fun c => c.map classify = tpl))
    let breaks := mkBreaks tpl b 1 bl.tail
    if 7 * bl.length ≤ 10 * matching then
      some (.repeating b tpl bl.length ne.length (bl.headD [])
        (if breaks.isEmpty then none else some breaks))
    else none

/-- The `for block_size in range(1, min(11, len(non_empty)//2 + 1))` loop:
first successful block size wins. -/
def searchBlocks (ne : List String) : List Nat → Option PatternResult
  | [] => none
  | b :: bs =>
    match attemptBlock ne b with
    | some r => some r
    | none => searchBlocks ne bs

/-! ### Prefix grouping (lines 166-182) -/

/-- First whitespace-separated token of a character list: `s.split()[0]`.
`none` is Python's `IndexError` on an all-whitespace string. -/
def firstWord : List Char → Option (List Char)
  | [] => none
  | c :: cs => if isWs c then firstWord cs else some (c :: cs.takeWhile (fun x => !isWs x))

/-- Prefix of one value: the first token if the value contains a space,
otherwise the first (at most) 5 characters; `none` models the
`IndexError` raised by `" ".split()[0]`. -/
def prefixOf (v : String) : Option String :=
  if v.data.contains ' ' then (firstWord v.data).map (fun w => ⟨w⟩)
  else some ⟨v.data.take 5⟩

/-- Insertion-ordered counting dictionary update (`prefixes[p] += 1`). -/
def bump (k : String) : List (String × Nat) → List (String × Nat)
  | [] => [(k, 1)]
  | (k', n) :: rest => if k' = k then (k', n + 1) :: rest else (k', n) :: bump k rest

/-- Build the prefix-frequency dictionary; `none` propagates the
`IndexError` from `prefixOf`. -/
def buildPrefixes : List String → List (String × Nat) → Option (List (String × Nat))
  | [], acc => some acc
  | v :: vs, acc =>
    match prefixOf v with
    | some p => buildPrefixes vs (bump p acc)
    | none => none

/-- Python `max(items, key=lambda x: x[1])`: first item with maximal
count wins (later ties do not replace it). -/
def maxFirst : List (String × Nat) → Option (String × Nat)
  | [] => none
  | x :: xs => some (xs.foldl (fun acc y => if acc.2 < y.2 then y else acc) x)

/-- `list(dict.fromkeys(non_empty))`: dedupe keeping first occurrences. -/
def dedupGo (seen : List String) : List String → List String
  | [] => []
  | x :: xs => if x ∈ seen then dedupGo seen xs else x :: dedupGo (x :: seen) xs

def dedup (l : List String) : List String := dedupGo [] l

/-- The fallback of lines 184-198 (unique listing / varied bag). -/
def fallbackResult (values : List (Option String)) (ne : List String) : PatternResult :=
  let u := dedup ne
  if u.length ≤ 20 then .listKind u values.length
  else .varied u.length values.length (ne.take 10)

/-- Lines 153-198 of extract_sheet_structure.py: the classification
attempted after the repeating-block search found nothing (date sequence,
then prefix grouping, then the unique-listing fallback).  `ne` is the
list of truthy values. -/
def detectTail (values : List (Option String)) (ne : List String) : Option PatternResult :=
  if 3 ≤ ne.length ∧ 7 * ne.length < 10 * ne.countP is_date then
    some (.dateSequence ne.length (ne.headD "") (ne.getLastD "") (ne.take 5))
  else if 5 < ne.length then
    match buildPrefixes ne [] with
    | none => none
    | some prefixes =>
      match maxFirst prefixes with
      | some (p, cnt) =>
        if 3 * ne.length < 10 * cnt then
          some (.variedWithPfx p cnt ne.length (ne.take 5))
        else some (fallbackResult values ne)
      | none => some (fallbackResult values ne)
  else some (fallbackResult values ne)

/-- Lines 81-198 of extract_sheet_structure.py, on a non-empty input
with `ne` its truthy values. -/
def detectNonEmpty (values : List (Option String)) (ne : List String) :
    Option PatternResult :=
  if ne.length = 0 then some (.allEmpty values.length)
  else if ne.length = 1 then some (.single (ne.headD ""))
  else if ne.all (fun v => v = ne.headD "") then
    some (.uniform (ne.headD "") values.length)
  else
    match searchBlocks ne (List.range' 1 (min 10 (ne.length / 2))) with
    | some r => some r
    | none => detectTail values ne

/-- `detect_pattern` (extract_sheet_structure.py lines 68-198).
`none` models an uncaught Python exception; the only reachable raise is
the `IndexError` from `" ".split()[0]` in the prefix-grouping step. -/
def detect_pattern (values : List (Option String)) : Option PatternResult :=
  if values = [] then some .empty
  else detectNonEmpty values (nonEmptyOf values)

/-! ### `normalize_formula` (analyze_sheet_structure.py lines 205-231)

Each `re.sub` pass uses a pattern built from the disjoint character
classes `$` / `[A-Z]` / `\d`, for which greedy matching with backtracking
coincides with deterministic maximal munch: a quantified class run is
always followed in the pattern by a character outside that class, so
giving back characters can never help.  A pass is therefore a
left-to-right scan that at each position either replaces a maximal-munch
match or copies one character. -/

/-- One atom of a reference pattern: a literal character or a greedy
non-empty character-class run. -/
inductive Item where
  | lit (c : Char) : Item
  | plus (p : Char → Bool) : Item

/-- Run a pattern at the head of the input, returning the number of
consumed characters. -/
def runItems : List Item → List Char → Option Nat
  | [], _ => some 0
  | .lit c :: pat, l =>
    match l with
    | [] => none
    | a :: rest => if a = c then (runItems pat rest).map (· + 1) else none
  | .plus p :: pat, l =>
    let k := (l.takeWhile p).length
    if k = 0 then none else (runItems pat (l.drop k)).map (· + k)

/-- `\$[A-Z]+\$\d+` → `{ABS}` -/
def patAbs : List Item := [.lit '$', .plus isUp, .lit '$', .plus isDig]

/-- `\$[A-Z]+\d+` → `{COL_ABS}` -/
def patColAbs : List Item := [.lit '$', .plus isUp, .plus isDig]

/-- `[A-Z]+\$\d+` → `{ROW_ABS}` -/
def patRowAbs : List Item := [.plus isUp, .lit '$', .plus isDig]

/-- `[A-Z]+\d+` → `{REL}` -/
def patRel : List Item := [.plus isUp, .plus isDig]

def tokAbs : List Char := "{ABS}".data
def tokColAbs : List Char := "{COL_ABS}".data
def tokRowAbs : List Char := "{ROW_ABS}".data
def tokRel : List Char := "{REL}".data

/-- One `re.sub` pass: scan left to right, replacing each leftmost match
by `tok`.  The fuel argument (always at least `l.length`) only makes the
recursion structural; matches consume at least one character. -/
def substGo (pat : List Item) (tok : List Char) : Nat → List Char → List Char
  | 0, l => l
  | fuel + 1, l =>
    match l with
    | [] => []
    | c :: cs =>
      match runItems pat l with
      | some n => tok ++ substGo pat tok fuel (l.drop n)
      | none => c :: substGo pat tok fuel cs

def subst (pat : List Item) (tok : List Char) (l : List Char) : List Char :=
  substGo pat tok l.length l

/-- The four sequential substitution passes over a character list. -/
def normChain (l : List Char) : List Char :=
  subst patRel tokRel
    (subst patRowAbs tokRowAbs
      (subst patColAbs tokColAbs
        (subst patAbs tokAbs l)))

/-- `normalize_formula`: empty input short-circuits to `""`, otherwise
the four substitution passes run in their fixed order. -/
def normalize_formula (formula : String) : String :=
  if formula = "" then "" else ⟨normChain formula.data⟩

/-! ### `analyze_formula_ranges` (analyze_sheet_structure.py lines 233-302)

A row of the API grid either lacks the `values` key (`none`) or carries a
list of cells; for this analysis a cell is just its optional
`formulaValue`. -/

/-- A cell, reduced to its optional formula string. -/
abbrev Cell := Option String

/-- A row: `none` models a row dictionary without a `values` key. -/
abbrev Row := Option (List Cell)

/-- The formula the scan sees at `(row, col)`: present only if the row
has cells, `col` is in bounds, the cell has a formula, and the formula
string is truthy (`if formula:`). -/
def effFormula (row : Row) (col : Nat) : Option String :=
  match row with
  | none => none
  | some vs =>
    match vs.get? col with
    | some (some f) => if f = "" then none else some f
    | _ => none

/-- The range dictionary built by `analyze_formula_ranges`. -/
structure FormulaRange where
  start_row : Nat
  end_row : Nat
  pattern : String
  first_formula : String
  formula_count : Nat
  formulas : List String
  deriving Repr, DecidableEq

/-- A freshly opened range at row `i` (lines 261-268 and 278-285). -/
def openRange (i : Nat) (pat f : String) : FormulaRange :=
  ⟨i, i, pat, f, 1, [f]⟩

/-- Extending the open range at row `i` (lines 269-274): bump
`end_row` and the count, keep at most 3 example formulas. -/
def extendRange (r : FormulaRange) (i : Nat) (f : String) : FormulaRange :=
  { r with
    end_row := i
    formula_count := r.formula_count + 1
    formulas := if r.formulas.length < 3 then r.formulas ++ [f] else r.formulas }

/-- One iteration of the scan over row `i` on the state
`(closed ranges, open range)`. -/
def afrStep (col : Nat) (i : Nat) (row : Row)
    (st : List FormulaRange × Option FormulaRange) :
    List FormulaRange × Option FormulaRange :=
  match effFormula row col with
  | some f =>
    let pat := normalize_formula f
    match st.2 with
    | none => (st.1, some (openRange i pat f))
    | some r =>
      if r.pattern = pat then (st.1, some (extendRange r i f))
      else (st.1 ++ [r], some (openRange i pat f))
  | none =>
    match st.2 with
    | some r => (st.1 ++ [r], none)
    | none => (st.1, none)

/-- The scan loop `for row_idx in range(start_row, len(row_data))`;
`i` is the index of the first row of `rows`. -/
def afrLoop (col : Nat) : Nat → List Row → List FormulaRange × Option FormulaRange →
    List FormulaRange × Option FormulaRange
  | _, [], st => st
  | i, row :: rest, st => afrLoop col (i + 1) rest (afrStep col i row st)

/-- Close a still-open range after the scan (lines 299-300). -/
def closeState (st : List FormulaRange × Option FormulaRange) : List FormulaRange :=
  match st.2 with
  | some r => st.1 ++ [r]
  | none => st.1

/-- `analyze_formula_ranges`. -/
def analyze_formula_ranges (row_data : List Row) (col_idx : Nat) (start_row : Nat) :
    List FormulaRange :=
  closeState (afrLoop col_idx start_row (row_data.drop start_row) ([], none))

/-! ### Formula flow annotation (analyze_sheet_structure.py lines 399-428) -/

/-- A `FormulaRange` projected to 1-based rows with the optional break
annotation (the keys are added only when a resumption is found). -/
structure FlowEntry where
  start_row : Nat
  end_row : Nat
  row_count : Nat
  pattern : String
  first_formula : String
  examples : List String
  break_after : Option Bool
  continues_at_row : Option Nat
  break_size : Option Nat
  deriving Repr, DecidableEq

/-- Whether the scan sees a formula at 0-based row `i` of the grid. -/
def hasFormulaAt (row_data : List Row) (col i : Nat) : Bool :=
  match row_data.get? i with
  | some row => (effFormula row col).isSome
  | none => false

/-- The look-ahead `for check_row in range(e+1, min(e+10, len(row_data)))`:
1-based index of the first formula-bearing row in the bounded window. -/
def findNextFormulaRow (row_data : List Row) (col e : Nat) : Option Nat :=
  ((List.range' (e + 1) (min (e + 10) row_data.length - (e + 1))).find?
    (fun cr => hasFormulaAt row_data col cr)).map (· + 1)

/-- The flow entry for one closed range (lines 400-427). -/
def flowEntryOf (row_data : List Row) (col : Nat) (r : FormulaRange) : FlowEntry :=
  let base : FlowEntry :=
    ⟨r.start_row + 1, r.end_row + 1, r.formula_count, r.pattern, r.first_formula,
      r.formulas.take 3, none, none, none⟩
  if r.end_row + 1 < row_data.length then
    match findNextFormulaRow row_data col r.end_row with
    | some nfr =>
      { base with
        break_after := some true
        continues_at_row := some nfr
        break_size := some (nfr - (r.end_row + 1) - 1) }
    | none => base
  else base

/-- The `formula_flow` list built by `analyze_column_types`
(lines 396-428). -/
def formulaFlow (row_data : List Row) (col start_row : Nat) : List FlowEntry :=
  (analyze_formula_ranges row_data col start_row).map (flowEntryOf row_data col)

/-! ### Concrete inputs used by the claims -/

/-- The break-detection example sequence of the spec. -/
def qrcInput : List (Option String) :=
  [some "Q1", some "Rev", some "Q1", some "Rev", some "Q1", some "Cost"]

/-- The date-sequence example of the spec. -/
def datesInput : List (Option String) :=
  [some "2024-01-01", some "2024-01-02", some "2024-01-03"]

/-- The clean repeating example of the spec. -/
def qrInput : List (Option String) :=
  [some "Q1", some "Rev", some "Q1", some "Rev", some "Q1", some "Rev"]

/-- A sequence whose whitespace-only value reaches the prefix-grouping
step: `" ".split()` is `[]`, so `" ".split()[0]` raises `IndexError`. -/
def crashInput : List (Option String) :=
  [some " ", some "A", some "B", some "C", some "D", some "E", some "F"]

/-- A column grid (column 0) with formulas of one signature at 0-based
rows 0-4 (1-based 1-5), a formula-less cell at 0-based row 5 (1-based 6)
and formulas of another signature at 0-based rows 6-7 (1-based 7-8). -/
def flowGrid : List Row :=
  [some [some "=A1"], some [some "=A2"], some [some "=A3"], some [some "=A4"],
   some [some "=A5"], some [none], some [some "=$B$1"], some [some "=$B$2"]]

/-- Projection: is the result the `repeating` variant? -/
def isRepeating : PatternResult → Bool
  | .repeating _ _ _ _ _ _ => true
  | _ => false

/-- Projection: is the result the `date_sequence` variant? -/
def isDateSeq : PatternResult → Bool
  | .dateSequence _ _ _ _ => true
  | _ => false

/-- The `breaks` field of a `repeating` result (the key is present in
the Python dictionary exactly when this is `some`). -/
def breaksOf : PatternResult → Option (List BreakEntry)
  | .repeating _ _ _ _ _ br => br
  | _ => none

/-! ### Claim C1 -/

/-- C1: the claim says `detect` never raises; the code raises
`IndexError` when a whitespace-only value containing a space reaches the
prefix-grouping step, because `" ".split()` is the empty list.  This
theorem evaluates the embedded code at the failing input: the `none`
result is the uncaught exception. -/
theorem detect_pattern_crash :
    detect_pattern crashInput = none := by decide

/-! ### Claim C2 -/

/-- C2 counterexample: on `["Q1","Rev","Q1","Rev","Q1","Cost"]` only 2 of
the 3 size-2 chunks match the template, and `2 >= 3*0.7` is false, so no
`repeating` result is produced; the sequence instead falls through to the
prefix-grouping rule. -/
theorem detect_qrc_not_repeating :
    detect_pattern qrcInput =
      some (.variedWithPfx "Q1" 3 6 ["Q1", "Rev", "Q1", "Rev", "Q1"]) ∧
    (detect_pattern qrcInput).map isRepeating = some false := by decide

/-- C2 (amended): `detect(["Q1","Rev","Q1","Rev","Q1","Cost"])` returns
`VariedWithPrefix{commonPrefix:"Q1", prefixCount:3, total:6}`: the broken
third chunk leaves only 2 of 3 chunks matching, below the 70% threshold,
so the repeating-block rule rejects every block size. -/
theorem detect_qrc_varied_with_pfx :
    detect_pattern qrcInput =
      some (.variedWithPfx "Q1" 3 6 ["Q1", "Rev", "Q1", "Rev", "Q1"]) := by decide

/-! ### Claim C3 -/

/-- C3 counterexample: all three dates map to the `"<date>"` template
entry, so the block-size-1 search matches 3 of 3 chunks and returns
`repeating` before the date-sequence rule is reached. -/
theorem detect_dates_not_date_sequence :
    detect_pattern datesInput =
      some (.repeating 1 ["<date>"] 3 3 ["2024-01-01"] none) ∧
    (detect_pattern datesInput).map isDateSeq = some false := by decide

/-- C3 (amended): `detect(["2024-01-01","2024-01-02","2024-01-03"])`
returns `Repeating{blockSize:1, template:["<date>"], repeatCount:3,
totalItems:3}`: the size-1 templates of date-shaped values are all
`"<date>"`, so every chunk matches and the 70% threshold is met. -/
theorem detect_dates_repeating :
    detect_pattern datesInput =
      some (.repeating 1 ["<date>"] 3 3 ["2024-01-01"] none) := by decide

/-! ### Claim C5 -/

/-- C5 counterexample: on the fully matching sequence the Python code
adds the `"breaks"` key only when the list is non-empty, so the result
carries no `breaks` field (`none`), not an empty list. -/
theorem detect_qr_breaks_absent :
    detect_pattern qrInput =
      some (.repeating 2 ["Q1", "Rev"] 3 6 ["Q1", "Rev"] none) ∧
    (detect_pattern qrInput).map breaksOf ≠ some (some []) := by decide

/-- C5 (amended): `detect(["Q1","Rev","Q1","Rev","Q1","Rev"])` returns
`Repeating{blockSize:2, template:["Q1","Rev"], repeatCount:3,
totalItems:6}` with no `breaks` field at all (the key is only added when
at least one chunk fails to match). -/
theorem detect_qr_repeating :
    detect_pattern qrInput =
      some (.repeating 2 ["Q1", "Rev"] 3 6 ["Q1", "Rev"] none) := by decide

/-! ### Claim C7 -/

/-- C7 counterexample: on the column with one-signature formulas at rows
1-5 (1-based), a gap at row 6 and different-signature formulas at rows
7-8, the analysis does yield two ranges and the first flow entry is
annotated `breakAfter:true, continuesAtRow:7`, but its `breakSize` is
`continuesAtRow - endRow - 1 = 7 - 5 - 1 = 1`, not `0` as claimed. -/
theorem flow_break_size_not_zero :
    (analyze_formula_ranges flowGrid 0 1).length = 2 ∧
    (formulaFlow flowGrid 0 1).map
      (fun e => (e.break_after, e.continues_at_row, e.break_size)) =
      [(some true, some 7, some 1), (none, none, none)] ∧
    (formulaFlow flowGrid 0 1).head?.map (fun e => e.break_size) ≠
      some (some 0) := by decide

/-- C7 (amended): the column with formulas at 1-based rows 1-5 (one
signature), a gap at row 6 and formulas at rows 7-8 (another signature)
yields exactly two `FormulaRange`s, and the first range's flow entry is
annotated `breakAfter:true, continuesAtRow:7, breakSize:1` (the one
formula-less row strictly between end row 5 and resumption row 7); the
scan starts at row index 1, so the first range covers 1-based rows 2-5. -/
theorem flow_two_ranges_annotated :
    formulaFlow flowGrid 0 1 =
      [⟨2, 5, 4, "={REL}", "=A2", ["=A2", "=A3", "=A4"],
        some true, some 7, some 1⟩,
       ⟨7, 8, 2, "={ABS}", "=$B$1", ["=$B$1", "=$B$2"], none, none, none⟩] := by
  decide

/-! ### Claim C6: the ranges are the maximal same-signature runs

Specification-side description, following the claim's words: each scanned
row contributes a signature (`none` for a gap — no cell at the column or
no truthy formula), and the expected output is the list of maximal
contiguous runs of equal signatures, in scan order.  `sigRuns` builds
that list by recursion on the rows from the right, which is structurally
independent of the left-to-right state machine in the code. -/

/-- The signature a scanned row contributes: the normalized formula, or
`none` for a gap. -/
def sigOf (row : Row) (col : Nat) : Option String :=
  (effFormula row col).map normalize_formula

/-- Maximal contiguous runs of equal signatures, as
`(first row, last row, signature)` triples; `i` is the index of the
first row of `rows`. -/
def sigRuns (col : Nat) : Nat → List Row → List (Nat × Nat × String)
  | _, [] => []
  | i, row :: rest =>
    match sigOf row col with
    | none => sigRuns col (i + 1) rest
    | some p =>
      match sigRuns col (i + 1) rest with
      | [] => [(i, i, p)]
      | (a, b, q) :: more =>
        if a = i + 1 ∧ q = p then (i, b, p) :: more
        else (i, i, p) :: (a, b, q) :: more

/-- Prepend a run to a run list, merging with the head run when the head
starts right after it with the same signature. -/
def mergeRun (t : Nat × Nat × String) : List (Nat × Nat × String) →
    List (Nat × Nat × String)
  | [] => [t]
  | (a', b', q) :: more =>
    if a' = t.2.1 + 1 ∧ q = t.2.2 then (t.1, b', t.2.2) :: more
    else t :: (a', b', q) :: more

/-- `mergeRun` lifted to an optional open run. -/
def mergeState : Option (Nat × Nat × String) → List (Nat × Nat × String) →
    List (Nat × Nat × String)
  | none, runs => runs
  | some t, runs => mergeRun t runs

/-- Projection of a range to its run triple. -/
def projRange (r : FormulaRange) : Nat × Nat × String :=
  (r.start_row, r.end_row, r.pattern)

theorem afrStep_append (col i : Nat) (row : Row) (done : List FormulaRange)
    (cur : Option FormulaRange) :
    afrStep col i row (done, cur) =
      (done ++ (afrStep col i row ([], cur)).1, (afrStep col i row ([], cur)).2) := by
  unfold afrStep
  cases h : effFormula row col <;> cases cur <;> simp
  all_goals (split <;> simp)

theorem afrLoop_append (col : Nat) :
    ∀ (rows : List Row) (i : Nat) (done : List FormulaRange)
      (cur : Option FormulaRange),
    afrLoop col i rows (done, cur) =
      (done ++ (afrLoop col i rows ([], cur)).1, (afrLoop col i rows ([], cur)).2) := by
  intro rows
  induction rows with
  | nil => intro i done cur; simp [afrLoop]
  | cons row rest ih =>
    intro i done cur
    show afrLoop col (i + 1) rest (afrStep col i row (done, cur)) = _
    rw [afrStep_append]
    rw [ih (i + 1) (done ++ (afrStep col i row ([], cur)).1) (afrStep col i row ([], cur)).2]
    have h2 : afrLoop col i (row :: rest) ([], cur) =
        afrLoop col (i + 1) rest (afrStep col i row ([], cur)) := rfl
    rw [h2, ih (i + 1) (afrStep col i row ([], cur)).1 (afrStep col i row ([], cur)).2]
    simp

theorem closeState_append (done l : List FormulaRange) (c : Option FormulaRange) :
    closeState (done ++ l, c) = done ++ closeState (l, c) := by
  cases c <;> simp [closeState]

theorem sigRuns_head_ge (col : Nat) :
    ∀ (rows : List Row) (i a b : Nat) (q : String)
      (more : List (Nat × Nat × String)),
    sigRuns col i rows = (a, b, q) :: more → i ≤ a := by
  intro rows
  induction rows with
  | nil => intro i a b q more h; simp [sigRuns] at h
  | cons row rest ih =>
    intro i a b q more h
    unfold sigRuns at h
    cases hs : sigOf row col with
    | none =>
      rw [hs] at h
      exact Nat.le_of_succ_le (ih (i + 1) a b q more h)
    | some p =>
      rw [hs] at h
      cases hr : sigRuns col (i + 1) rest with
      | nil => rw [hr] at h; simp at h; omega
      | cons hd tl =>
        obtain ⟨a', b', q'⟩ := hd
        rw [hr] at h
        by_cases hc : a' = i + 1 ∧ q' = p
        · simp [hc] at h; omega
        · simp [hc] at h; omega


theorem projRange_openRange (i : Nat) (p f : String) :
    projRange (openRange i p f) = (i, i, p) := rfl

theorem projRange_extendRange (r : FormulaRange) (i : Nat) (f : String) :
    projRange (extendRange r i f) = (r.start_row, i, r.pattern) := rfl

theorem sigRuns_cons_none {col i : Nat} {row : Row} {rest : List Row}
    (h : sigOf row col = none) :
    sigRuns col i (row :: rest) = sigRuns col (i + 1) rest := by
  simp only [sigRuns, h]

/-- Unfolding `sigRuns` on a signature-bearing head row is exactly a
`mergeRun` of the singleton run `(i, i, p)`. -/
theorem sigRuns_cons_some {col i : Nat} {row : Row} {rest : List Row} {p : String}
    (h : sigOf row col = some p) :
    sigRuns col i (row :: rest) = mergeRun (i, i, p) (sigRuns col (i + 1) rest) := by
  simp only [sigRuns, h]
  cases hX : sigRuns col (i + 1) rest with
  | nil => simp [mergeRun]
  | cons hd tl => obtain ⟨a, b, q⟩ := hd; simp [mergeRun]

/-- Merging the closed run and then the fresh one-row run it is extended
by collapses to merging the extended run. -/
theorem mergeRun_extend (s e i : Nat) (p : String)
    (hei : e + 1 = i) (X : List (Nat × Nat × String)) :
    mergeRun (s, e, p) (mergeRun (i, i, p) X) = mergeRun (s, i, p) X := by
  cases X with
  | nil => simp [mergeRun, hei]
  | cons hd tl =>
    obtain ⟨a, b, q⟩ := hd
    by_cases hc : a = i + 1 ∧ q = p
    · simp only [mergeRun, hc, and_self, if_true, if_pos]
      simp [hei]
    · simp only [mergeRun, if_neg hc]
      simp [hei, hc]

/-- A closed run followed by a fresh run with a different signature does
not merge. -/
theorem mergeRun_break (s e i : Nat) (p rp : String) (hne : p ≠ rp)
    (X : List (Nat × Nat × String)) :
    mergeRun (s, e, rp) (mergeRun (i, i, p) X) = (s, e, rp) :: mergeRun (i, i, p) X := by
  cases X with
  | nil => simp [mergeRun, hne]
  | cons hd tl =>
    obtain ⟨a, b, q⟩ := hd
    by_cases hc : a = i + 1 ∧ q = p
    · simp only [mergeRun, hc, and_self, if_true, if_pos]
      simp [hne]
    · simp only [mergeRun, if_neg hc]
      simp [hne]

/-- A closed run does not merge with a run list whose head starts
further than one row after it. -/
theorem mergeRun_far (s e : Nat) (p : String) (X : List (Nat × Nat × String))
    (hfar : ∀ a b q more, X = (a, b, q) :: more → a ≠ e + 1) :
    mergeRun (s, e, p) X = (s, e, p) :: X := by
  cases X with
  | nil => rfl
  | cons hd tl =>
    obtain ⟨a, b, q⟩ := hd
    have : ¬(a = e + 1 ∧ q = p) := fun hc => hfar a b q tl rfl hc.1
    simp [mergeRun, this]

/-- Core correspondence between the scan loop and the declarative run
grouping: starting from an empty output and an open run that (when
present) ends just before the first scanned row, the closed final state
projects exactly to the open run merged onto the runs of the remaining
rows. -/
theorem afr_loop_runs (col : Nat) :
    ∀ (rows : List Row) (i : Nat) (cur : Option FormulaRange),
    (∀ r, cur = some r → r.end_row + 1 = i) →
    (closeState (afrLoop col i rows ([], cur))).map projRange =
      mergeState (cur.map projRange) (sigRuns col i rows) := by
  intro rows
  induction rows with
  | nil =>
    intro i cur _
    cases cur with
    | none => simp [afrLoop, closeState, mergeState, sigRuns]
    | some r => simp [afrLoop, closeState, mergeState, mergeRun, sigRuns, projRange]
  | cons row rest ih =>
    intro i cur hcur
    show (closeState (afrLoop col (i + 1) rest (afrStep col i row ([], cur)))).map projRange = _
    cases hf : effFormula row col with
    | none =>
      have hsig : sigOf row col = none := by simp [sigOf, hf]
      cases cur with
      | none =>
        have hst : afrStep col i row (([] : List FormulaRange), (none : Option FormulaRange)) =
            ([], none) := by simp [afrStep, hf]
        rw [hst, ih (i + 1) none (by intro r h; cases h)]
        simp [mergeState, sigRuns_cons_none hsig]
      | some r =>
        have hr := hcur r rfl
        have hst : afrStep col i row (([] : List FormulaRange), some r) = ([r], none) := by
          simp [afrStep, hf]
        rw [hst, afrLoop_append, closeState_append]
        simp only [List.map_append]
        rw [ih (i + 1) none (by intro r h; cases h)]
        simp only [mergeState, Option.map_none', Option.map_some', projRange,
          List.map_cons, List.map_nil]
        rw [sigRuns_cons_none hsig]
        rw [mergeRun_far r.start_row r.end_row r.pattern (sigRuns col (i + 1) rest)
          (by
            intro a b q more hX hcon
            have := sigRuns_head_ge col rest (i + 1) a b q more hX
            omega)]
        rfl
    | some f =>
      have hsig : sigOf row col = some (normalize_formula f) := by simp [sigOf, hf]
      cases cur with
      | none =>
        have hst : afrStep col i row (([] : List FormulaRange), (none : Option FormulaRange)) =
            ([], some (openRange i (normalize_formula f) f)) := by
          simp [afrStep, hf]
        rw [hst, ih (i + 1) (some (openRange i (normalize_formula f) f))
          (by intro r h; cases h; simp [openRange])]
        simp only [mergeState, Option.map_none', Option.map_some', projRange_openRange]
        rw [sigRuns_cons_some hsig]
      | some r =>
        have hr := hcur r rfl
        by_cases hpq : r.pattern = normalize_formula f
        · have hst : afrStep col i row (([] : List FormulaRange), some r) =
              ([], some (extendRange r i f)) := by
            simp [afrStep, hf, hpq]
          rw [hst, ih (i + 1) (some (extendRange r i f))
            (by intro r' h; cases h; simp [extendRange])]
          simp only [mergeState, Option.map_some', projRange_extendRange, projRange]
          rw [sigRuns_cons_some hsig]
          rw [← hpq]
          exact (mergeRun_extend r.start_row r.end_row i r.pattern hr
            (sigRuns col (i + 1) rest)).symm
        · have hst : afrStep col i row (([] : List FormulaRange), some r) =
              ([r], some (openRange i (normalize_formula f) f)) := by
            simp [afrStep, hf, hpq]
          rw [hst, afrLoop_append, closeState_append]
          simp only [List.map_append]
          rw [ih (i + 1) (some (openRange i (normalize_formula f) f))
            (by intro r' h; cases h; simp [openRange])]
          simp only [mergeState, Option.map_some', projRange_openRange, projRange,
            List.map_cons, List.map_nil]
          rw [sigRuns_cons_some hsig]
          rw [mergeRun_break r.start_row r.end_row i (normalize_formula f) r.pattern
            (fun h => hpq h.symm) (sigRuns col (i + 1) rest)]
          rfl

/-- C6: the list returned by `analyze_formula_ranges` is exactly the
maximal contiguous same-signature runs of the scanned rows, in scan
order: a formula whose signature equals the open range's extends it, a
differing signature closes and reopens, a gap (no formula or no cell at
the column) closes, and the end of the scan closes a still-open range. -/
theorem analyze_formula_ranges_runs (row_data : List Row) (col_idx start_row : Nat) :
    (analyze_formula_ranges row_data col_idx start_row).map projRange =
      sigRuns col_idx start_row (row_data.drop start_row) := by
  unfold analyze_formula_ranges
  rw [afr_loop_runs col_idx (row_data.drop start_row) start_row none
    (by intro r h; cases h)]
  simp [mergeState]

/-! ### Claim C9: well-formedness and ordering of the emitted ranges -/

/-- Well-formedness of a single emitted range: rows ordered, at least one
formula, exactly `min(formula_count, 3)` stored example formulas, and the
first stored formula is `first_formula`. -/
def WFRange (r : FormulaRange) : Prop :=
  r.start_row ≤ r.end_row ∧ 1 ≤ r.formula_count ∧
  r.formulas.length = min r.formula_count 3 ∧
  r.formulas.head? = some r.first_formula

/-- Loop invariant on the scan state before processing row `i`. -/
def InvState (i : Nat) (st : List FormulaRange × Option FormulaRange) : Prop :=
  (∀ r ∈ st.1, WFRange r) ∧
  List.Chain' (fun a b => a.end_row < b.start_row) st.1 ∧
  (∀ r ∈ st.1, r.end_row < i) ∧
  (∀ c, st.2 = some c → WFRange c ∧ c.end_row < i ∧
    ∀ r ∈ st.1, r.end_row < c.start_row)

theorem mem_of_mem_getLast? {α : Type} {l : List α} {x : α}
    (h : x ∈ l.getLast?) : x ∈ l := by
  obtain ⟨hne, rfl⟩ := List.mem_getLast?_eq_getLast h
  exact List.getLast_mem hne

theorem wf_openRange (i : Nat) (p f : String) : WFRange (openRange i p f) := by
  simp [WFRange, openRange]

theorem wf_extendRange {r : FormulaRange} (hr : WFRange r) {i : Nat} {f : String}
    (hle : r.start_row ≤ i) : WFRange (extendRange r i f) := by
  obtain ⟨h1, h2, h3, h4⟩ := hr
  refine ⟨hle, by simp [extendRange], ?_, ?_⟩
  · simp only [extendRange]
    by_cases hlen : r.formulas.length < 3
    · simp only [if_pos hlen, List.length_append, List.length_cons, List.length_nil]
      omega
    · simp only [if_neg hlen]
      omega
  · simp only [extendRange]
    by_cases hlen : r.formulas.length < 3
    · simp only [if_pos hlen]
      have hne : r.formulas ≠ [] := by
        intro hcon
        rw [hcon] at h3
        simp at h3
        omega
      rw [List.head?_append_of_ne_nil _ hne]
      exact h4
    · simp only [if_neg hlen]
      exact h4

/-- Closing the open range into the output preserves the invariant data. -/
theorem inv_close {i : Nat} {done : List FormulaRange} {c : FormulaRange}
    (hdone : ∀ r ∈ done, WFRange r)
    (hchain : List.Chain' (fun a b => a.end_row < b.start_row) done)
    (hends : ∀ r ∈ done, r.end_row < i)
    (hc : WFRange c ∧ c.end_row < i ∧ ∀ r ∈ done, r.end_row < c.start_row) :
    (∀ r ∈ done ++ [c], WFRange r) ∧
    List.Chain' (fun a b => a.end_row < b.start_row) (done ++ [c]) ∧
    (∀ r ∈ done ++ [c], r.end_row < i) := by
  obtain ⟨hcwf, hcend, hcsep⟩ := hc
  refine ⟨?_, ?_, ?_⟩
  · intro r hr
    rcases List.mem_append.1 hr with h | h
    · exact hdone r h
    · simp at h; subst h; exact hcwf
  · rw [List.chain'_append]
    refine ⟨hchain, List.chain'_singleton c, ?_⟩
    intro x hx y hy
    simp at hy
    subst hy
    exact hcsep x (mem_of_mem_getLast? hx)
  · intro r hr
    rcases List.mem_append.1 hr with h | h
    · exact hends r h
    · simp at h; subst h; exact hcend

theorem afrStep_inv (col i : Nat) (row : Row)
    (st : List FormulaRange × Option FormulaRange) (h : InvState i st) :
    InvState (i + 1) (afrStep col i row st) := by
  obtain ⟨done, cur⟩ := st
  obtain ⟨hdone, hchain, hends, hcur⟩ := h
  cases hf : effFormula row col with
  | none =>
    cases cur with
    | none =>
      have hstep : afrStep col i row (done, none) = (done, none) := by
        simp [afrStep, hf]
      rw [hstep]
      refine ⟨hdone, hchain, fun r hr => Nat.lt_succ_of_lt (hends r hr), ?_⟩
      intro c hc
      cases hc
    | some c =>
      have hstep : afrStep col i row (done, some c) = (done ++ [c], none) := by
        simp [afrStep, hf]
      rw [hstep]
      obtain ⟨h1, h2, h3⟩ := inv_close hdone hchain hends (hcur c rfl)
      exact ⟨h1, h2, fun r hr => Nat.lt_succ_of_lt (h3 r hr), by intro c hc; cases hc⟩
  | some f =>
    cases cur with
    | none =>
      have hstep : afrStep col i row (done, none) =
          (done, some (openRange i (normalize_formula f) f)) := by
        simp [afrStep, hf]
      rw [hstep]
      refine ⟨hdone, hchain, fun r hr => Nat.lt_succ_of_lt (hends r hr), ?_⟩
      intro c hc
      injection hc with hc
      subst hc
      exact ⟨wf_openRange _ _ _, Nat.lt_succ_self i, fun r hr => hends r hr⟩
    | some c =>
      obtain ⟨hcwf, hcend, hcsep⟩ := hcur c rfl
      by_cases hpat : c.pattern = normalize_formula f
      · have hstep : afrStep col i row (done, some c) =
            (done, some (extendRange c i f)) := by
          simp [afrStep, hf, hpat]
        rw [hstep]
        refine ⟨hdone, hchain, fun r hr => Nat.lt_succ_of_lt (hends r hr), ?_⟩
        intro c' hc'
        injection hc' with hc'
        subst hc'
        refine ⟨wf_extendRange hcwf ?_, by simp [extendRange], ?_⟩
        · have := hcwf.1; omega
        · intro r hr
          simpa [extendRange] using hcsep r hr
      · have hstep : afrStep col i row (done, some c) =
            (done ++ [c], some (openRange i (normalize_formula f) f)) := by
          simp [afrStep, hf, hpat]
        rw [hstep]
        obtain ⟨h1, h2, h3⟩ := inv_close hdone hchain hends ⟨hcwf, hcend, hcsep⟩
        refine ⟨h1, h2, fun r hr => Nat.lt_succ_of_lt (h3 r hr), ?_⟩
        intro c' hc'
        injection hc' with hc'
        subst hc'
        refine ⟨wf_openRange _ _ _, Nat.lt_succ_self i, ?_⟩
        intro r hr
        simpa [openRange] using h3 r hr

theorem afrLoop_inv (col : Nat) :
    ∀ (rows : List Row) (i : Nat) (st : List FormulaRange × Option FormulaRange),
    InvState i st → InvState (i + rows.length) (afrLoop col i rows st) := by
  intro rows
  induction rows with
  | nil => intro i st h; simpa [afrLoop] using h
  | cons row rest ih =>
    intro i st h
    have h1 := afrStep_inv col i row st h
    have h2 := ih (i + 1) (afrStep col i row st) h1
    show InvState (i + (rest.length + 1)) (afrLoop col (i + 1) rest (afrStep col i row st))
    have : i + (rest.length + 1) = i + 1 + rest.length := by omega
    rw [this]
    exact h2

/-- C9: every range emitted by the column analysis is well-formed
(`start_row ≤ end_row`, `formula_count ≥ 1`, exactly
`min(formula_count, 3)` stored formulas whose first entry is
`first_formula`), and the ranges are pairwise disjoint and strictly
ordered: each range ends strictly before the next one starts. -/
theorem analyze_formula_ranges_wf (row_data : List Row) (col_idx start_row : Nat) :
    (∀ r ∈ analyze_formula_ranges row_data col_idx start_row, WFRange r) ∧
    List.Chain' (fun a b => a.end_row < b.start_row)
      (analyze_formula_ranges row_data col_idx start_row) := by
  have h0 : InvState start_row (([] : List FormulaRange), (none : Option FormulaRange)) := by
    refine ⟨by simp, by simp, by simp, ?_⟩
    intro c hc; cases hc
  have h1 := afrLoop_inv col_idx (row_data.drop start_row) start_row ([], none) h0
  obtain ⟨hdone, hchain, hends, hcur⟩ := h1
  unfold analyze_formula_ranges closeState
  cases hc : (afrLoop col_idx start_row (row_data.drop start_row) ([], none)).2 with
  | none => exact ⟨hdone, hchain⟩
  | some c =>
    obtain ⟨h1, h2, _⟩ := inv_close hdone hchain hends (hcur c hc)
    exact ⟨h1, h2⟩

/-! ### Claim C10: invariants of every `repeating` result -/

theorem ccGo_length (b : Nat) (hb : 1 ≤ b) :
    ∀ (fuel : Nat) (l : List String), l.length ≤ fuel →
    (ccGo b fuel l).length = l.length / b := by
  intro fuel
  induction fuel with
  | zero =>
    intro l hl
    have : l.length = 0 := Nat.le_zero.1 hl
    simp [ccGo, this, Nat.zero_div]
  | succ fuel ih =>
    intro l hl
    by_cases hble : b ≤ l.length
    · have hcond : 1 ≤ b ∧ b ≤ l.length := ⟨hb, hble⟩
      simp only [ccGo, if_pos hcond, List.length_cons]
      have hdrop : (l.drop b).length = l.length - b := by simp
      have hdle : (l.drop b).length ≤ fuel := by omega
      rw [ih (l.drop b) hdle, hdrop]
      rw [Nat.div_eq_sub_div (by omega) hble]
    · have hcond : ¬(1 ≤ b ∧ b ≤ l.length) := fun hc => hble hc.2
      have hdiv : l.length / b = 0 := Nat.div_eq_of_lt (by omega)
      simp [ccGo, if_neg hcond, hdiv]

theorem completeChunks_length (b : Nat) (hb : 1 ≤ b) (l : List String) :
    (completeChunks b l).length = l.length / b :=
  ccGo_length b hb l.length l (Nat.le_refl _)

theorem mkBreaks_length (tpl : List String) (b : Nat) :
    ∀ (j : Nat) (cs : List (List String)),
    (mkBreaks tpl b j cs).length + cs.countP (fun c => c.map classify = tpl) =
      cs.length := by
  intro j cs
  induction cs generalizing j with
  | nil => simp [mkBreaks]
  | cons c cs ih =>
    have hih := ih (j + 1)
    by_cases hm : c.map classify = tpl
    · simp only [mkBreaks, if_pos hm, List.length_cons]
      simp [List.countP_cons, hm]
      omega
    · simp only [mkBreaks, if_neg hm, List.length_cons]
      simp [List.countP_cons, hm]
      omega

theorem searchBlocks_some {ne : List String} :
    ∀ (bs : List Nat) (r : PatternResult), searchBlocks ne bs = some r →
    ∃ b ∈ bs, attemptBlock ne b = some r := by
  intro bs
  induction bs with
  | nil => intro r h; simp [searchBlocks] at h
  | cons b rest ih =>
    intro r h
    unfold searchBlocks at h
    cases ha : attemptBlock ne b with
    | some r' =>
      rw [ha] at h
      injection h with h
      exact ⟨b, List.mem_cons_self b rest, by rw [ha, h]⟩
    | none =>
      rw [ha] at h
      obtain ⟨b', hb', hab⟩ := ih r h
      exact ⟨b', List.mem_cons_of_mem b hb', hab⟩

/-- Inversion of one block-size attempt that produced a `repeating`
result: the block size is echoed, the repeat count is the chunk count
(at least 2), the total is the non-blank count, and the break list
(defaulting to empty when the key is absent) is small enough for the
70% threshold. -/
theorem attemptBlock_some_inv {ne : List String} {b bs rc ti : Nat}
    {tpl sample : List String} {brks : Option (List BreakEntry)}
    (h : attemptBlock ne b = some (.repeating bs tpl rc ti sample brks)) :
    bs = b ∧ rc = (completeChunks b ne).length ∧ ti = ne.length ∧
    2 ≤ (completeChunks b ne).length ∧
    10 * (brks.getD []).length ≤ 3 * (completeChunks b ne).length := by
  unfold attemptBlock at h
  set bl := completeChunks b ne with hbl
  by_cases hlen : bl.length < 2
  · simp only [if_pos hlen] at h; cases h
  · simp only [if_neg hlen] at h
    set tpl0 := (bl.headD []).map classify with htpl0
    set cnt := bl.tail.countP (fun c => c.map classify = tpl0) with hcnt
    set breaks := mkBreaks tpl0 b 1 bl.tail with hbreaks
    by_cases hthr : 7 * bl.length ≤ 10 * (1 + cnt)
    · simp only [if_pos hthr] at h
      injection h with h
      injection h with h1 h2 h3 h4 h5 h6
      subst h1; subst h3; subst h4; subst h6
      refine ⟨rfl, rfl, rfl, by omega, ?_⟩
      have hmb := mkBreaks_length tpl0 b 1 bl.tail
      rw [← hbreaks, ← hcnt] at hmb
      have htail : bl.tail.length = bl.length - 1 := by simp
      by_cases he : breaks.isEmpty
      · simp only [if_pos he, Option.getD_none]
        simp
      · simp only [if_neg he, Option.getD_some]
        omega
    · simp only [if_neg hthr] at h; cases h

theorem fallbackResult_ne_repeating (values : List (Option String))
    (ne : List String) {bs rc ti : Nat} {tpl sample : List String}
    {brks : Option (List BreakEntry)} :
    fallbackResult values ne ≠ .repeating bs tpl rc ti sample brks := by
  unfold fallbackResult
  by_cases hu : (dedup ne).length ≤ 20
  · simp [hu]
  · simp [hu]

/-- The post-search classification never yields a `repeating` result. -/
theorem detectTail_ne_repeating (values : List (Option String))
    (ne : List String) {bs rc ti : Nat} {tpl sample : List String}
    {brks : Option (List BreakEntry)} :
    detectTail values ne ≠ some (.repeating bs tpl rc ti sample brks) := by
  unfold detectTail
  split
  · simp
  · split
    · split
      · simp
      · split
        · split
          · simp
          · simp [fallbackResult_ne_repeating]
        · simp [fallbackResult_ne_repeating]
    · simp [fallbackResult_ne_repeating]

/-- A `repeating` result can only come out of the block-size search. -/
theorem detect_repeating_from_search {values : List (Option String)}
    {bs rc ti : Nat} {tpl sample : List String} {brks : Option (List BreakEntry)}
    (h : detect_pattern values = some (.repeating bs tpl rc ti sample brks)) :
    searchBlocks (nonEmptyOf values)
        (List.range' 1 (min 10 ((nonEmptyOf values).length / 2))) =
      some (.repeating bs tpl rc ti sample brks) := by
  unfold detect_pattern at h
  split at h
  · exfalso; injection h with h; cases h
  · unfold detectNonEmpty at h
    split at h
    · exfalso; injection h with h; cases h
    · split at h
      · exfalso; injection h with h; cases h
      · split at h
        · exfalso; injection h with h; cases h
        · split at h
          · next r heq =>
            injection h with h
            rw [heq, h]
          · exact absurd h (detectTail_ne_repeating values (nonEmptyOf values))

/-- C10: every `repeating` result of `detect_pattern` has a block size
between 1 and 10, a repeat count of at least 2, `blockSize * repeatCount`
at most the number of non-blank values (which is `totalItems`), and at
most `30%` of the chunks recorded as breaks. -/
theorem detect_repeating_invariants (values : List (Option String))
    (bs rc ti : Nat) (tpl sample : List String) (brks : Option (List BreakEntry))
    (h : detect_pattern values = some (.repeating bs tpl rc ti sample brks)) :
    1 ≤ bs ∧ bs ≤ 10 ∧ 2 ≤ rc ∧ bs * rc ≤ ti ∧
    ti = (nonEmptyOf values).length ∧
    10 * (brks.getD []).length ≤ 3 * rc := by
  have hsearch := detect_repeating_from_search h
  obtain ⟨b, hbmem, hab⟩ := searchBlocks_some _ _ hsearch
  obtain ⟨hbs, hrc, hti, h2le, hbrk⟩ := attemptBlock_some_inv hab
  have hbrange := List.mem_range'_1.1 hbmem
  have hb1 : 1 ≤ b := hbrange.1
  have hble : b < 1 + min 10 ((nonEmptyOf values).length / 2) := hbrange.2
  have hcc := completeChunks_length b hb1 (nonEmptyOf values)
  refine ⟨by omega, by omega, by omega, ?_, by omega, by omega⟩
  have hmul : b * ((nonEmptyOf values).length / b) ≤ (nonEmptyOf values).length := by
    rw [Nat.mul_comm]
    exact Nat.div_mul_le_self _ _
  rw [hbs, hrc, hti, hcc]
  exact hmul

/-! ### Claim C4: the repeating-block search, declaratively

Specification-side definitions following the claim's words: partition
the non-blank values into complete consecutive chunks of size `b`
(trailing partial chunk dropped), build templates by `classify`, accept
`b` when at least two chunks exist and the template-matching chunks are
at least 70% of all chunks, and record every non-matching chunk as a
break entry. -/

/-- The `j`-th consecutive chunk is `l[j*b : j*b + b]`; exactly
`⌊|l| / b⌋` complete chunks exist. -/
def chunksSpec (b : Nat) (l : List String) : List (List String) :=
  (List.range (l.length / b)).map (fun j => (l.drop (j * b)).take b)

/-- The template of the first chunk. -/
def templateSpec (b : Nat) (l : List String) : List String :=
  ((chunksSpec b l).headD []).map classify

/-- Number of chunks whose templates equal the first chunk's. -/
def matchCountSpec (b : Nat) (l : List String) : Nat :=
  (chunksSpec b l).countP (fun c => c.map classify = templateSpec b l)

/-- Acceptance of a block size: at least two complete chunks, and
template-matching chunks are at least 70% of all chunks. -/
def okSpec (b : Nat) (l : List String) : Prop :=
  2 ≤ (chunksSpec b l).length ∧
  7 * (chunksSpec b l).length ≤ 10 * matchCountSpec b l

instance (b : Nat) (l : List String) : Decidable (okSpec b l) := by
  unfold okSpec; infer_instance

/-- Every non-matching chunk, recorded with its index, its start
position in the non-blank sequence, the expected template and its raw
values. -/
def breaksSpec (b : Nat) (l : List String) : List BreakEntry :=
  (chunksSpec b l).enum.filterMap (fun jc =>
    if jc.2.map classify = templateSpec b l then none
    else some ⟨jc.1, jc.1 * b, templateSpec b l, jc.2⟩)

/-- The `repeating` dictionary the claim predicts for an accepted block
size (its `breaks` key present exactly when some chunk failed). -/
def repeatingSpec (b : Nat) (l : List String) : PatternResult :=
  .repeating b (templateSpec b l) (chunksSpec b l).length l.length
    ((chunksSpec b l).headD [])
    (if (breaksSpec b l).isEmpty then none else some (breaksSpec b l))

theorem chunksSpec_nil {b : Nat} {l : List String} (h : l.length < b) :
    chunksSpec b l = [] := by
  unfold chunksSpec
  rw [Nat.div_eq_of_lt h]
  simp

theorem chunksSpec_cons {b : Nat} {l : List String} (hb : 1 ≤ b)
    (h : b ≤ l.length) :
    chunksSpec b l = l.take b :: chunksSpec b (l.drop b) := by
  unfold chunksSpec
  rw [Nat.div_eq_sub_div (by omega) h, List.range_succ_eq_map]
  rw [List.map_cons]
  congr 1
  · simp
  · rw [List.map_map]
    have hlen : (l.drop b).length = l.length - b := by simp
    rw [hlen]
    apply List.map_congr_left
    intro j _
    simp only [Function.comp_apply, List.drop_drop]
    have hsm : Nat.succ j * b = b + j * b := by
      rw [Nat.succ_mul]
      omega
    rw [hsm]

theorem ccGo_spec (b : Nat) (hb : 1 ≤ b) :
    ∀ (fuel : Nat) (l : List String), l.length ≤ fuel →
    ccGo b fuel l = chunksSpec b l := by
  intro fuel
  induction fuel with
  | zero =>
    intro l hl
    have h0 : l.length = 0 := Nat.le_zero.1 hl
    rw [chunksSpec_nil (by omega)]
    simp [ccGo]
  | succ fuel ih =>
    intro l hl
    by_cases hble : b ≤ l.length
    · have hcond : 1 ≤ b ∧ b ≤ l.length := ⟨hb, hble⟩
      simp only [ccGo, if_pos hcond]
      rw [chunksSpec_cons hb hble, ih (l.drop b) (by simp; omega)]
    · have hcond : ¬(1 ≤ b ∧ b ≤ l.length) := fun hc => hble hc.2
      simp only [ccGo, if_neg hcond]
      rw [chunksSpec_nil (by omega)]

theorem completeChunks_spec (b : Nat) (hb : 1 ≤ b) (l : List String) :
    completeChunks b l = chunksSpec b l :=
  ccGo_spec b hb l.length l (Nat.le_refl _)

/-- The code's `matching_blocks` (1 for the first chunk plus the
matching tail chunks) equals the spec-side count over all chunks. -/
theorem matchCount_eq {b : Nat} {l : List String} {hd : List String}
    {tl : List (List String)} (hchunks : chunksSpec b l = hd :: tl) :
    matchCountSpec b l =
      1 + tl.countP (fun c => c.map classify = templateSpec b l) := by
  unfold matchCountSpec
  rw [hchunks]
  rw [List.countP_cons]
  have htpl : hd.map classify = templateSpec b l := by
    unfold templateSpec
    rw [hchunks]
    rfl
  simp [htpl]
  omega

/-- The code's break-collection loop over the tail equals the spec-side
filter over all indexed chunks (the first chunk always matches its own
template, so index 0 never contributes). -/
theorem mkBreaks_enumFrom (tpl : List String) (b : Nat) :
    ∀ (cs : List (List String)) (j : Nat),
    mkBreaks tpl b j cs =
      (cs.enumFrom j).filterMap (fun jc =>
        if jc.2.map classify = tpl then none
        else some ⟨jc.1, jc.1 * b, tpl, jc.2⟩) := by
  intro cs
  induction cs with
  | nil => intro j; simp [mkBreaks]
  | cons c cs ih =>
    intro j
    rw [List.enumFrom_cons, List.filterMap_cons]
    by_cases hm : c.map classify = tpl
    · simp only [mkBreaks, if_pos hm, ih (j + 1)]
    · simp only [mkBreaks, if_neg hm, ih (j + 1)]

theorem breaksSpec_eq {b : Nat} {l : List String} {hd : List String}
    {tl : List (List String)} (hchunks : chunksSpec b l = hd :: tl) :
    breaksSpec b l = mkBreaks (templateSpec b l) b 1 tl := by
  unfold breaksSpec
  rw [hchunks, List.enum_cons, List.filterMap_cons]
  have htpl : hd.map classify = templateSpec b l := by
    unfold templateSpec
    rw [hchunks]
    rfl
  rw [if_pos htpl, mkBreaks_enumFrom]

/-- An accepted block size makes the code's attempt succeed with
exactly the spec-side `repeating` dictionary. -/
theorem attemptBlock_of_okSpec {b : Nat} {ne : List String} (hb : 1 ≤ b)
    (hok : okSpec b ne) :
    attemptBlock ne b = some (repeatingSpec b ne) := by
  obtain ⟨h2, hthr⟩ := hok
  obtain ⟨hd, tl, hchunks⟩ : ∃ hd tl, chunksSpec b ne = hd :: tl := by
    cases hc : chunksSpec b ne with
    | nil => rw [hc] at h2; simp at h2
    | cons hd tl => exact ⟨hd, tl, rfl⟩
  unfold attemptBlock
  rw [completeChunks_spec b hb ne]
  rw [if_neg (by omega)]
  have htpl : (( chunksSpec b ne).headD []).map classify = templateSpec b ne := rfl
  rw [htpl]
  have hmc := matchCount_eq hchunks
  have htail : (chunksSpec b ne).tail = tl := by rw [hchunks]; rfl
  rw [htail]
  rw [if_pos (by rw [← hmc]; exact hthr)]
  unfold repeatingSpec
  rw [breaksSpec_eq hchunks]

/-- A rejected block size makes the code's attempt fail. -/
theorem attemptBlock_of_not_okSpec {b : Nat} {ne : List String} (hb : 1 ≤ b)
    (hok : ¬ okSpec b ne) :
    attemptBlock ne b = none := by
  unfold attemptBlock
  rw [completeChunks_spec b hb ne]
  by_cases h2 : (chunksSpec b ne).length < 2
  · rw [if_pos h2]
  · rw [if_neg h2]
    obtain ⟨hd, tl, hchunks⟩ : ∃ hd tl, chunksSpec b ne = hd :: tl := by
      cases hc : chunksSpec b ne with
      | nil => rw [hc] at h2; simp at h2
      | cons hd tl => exact ⟨hd, tl, rfl⟩
    have htpl : ((chunksSpec b ne).headD []).map classify = templateSpec b ne := rfl
    rw [htpl]
    have hmc := matchCount_eq hchunks
    have htail : (chunksSpec b ne).tail = tl := by rw [hchunks]; rfl
    rw [htail]
    rw [if_neg (by rw [← hmc]; intro hcon; exact hok ⟨by omega, hcon⟩)]

theorem searchBlocks_append (ne : List String) :
    ∀ (l1 l2 : List Nat),
    searchBlocks ne (l1 ++ l2) =
      match searchBlocks ne l1 with
      | some r => some r
      | none => searchBlocks ne l2 := by
  intro l1
  induction l1 with
  | nil => intro l2; simp [searchBlocks]
  | cons b rest ih =>
    intro l2
    have hl : searchBlocks ne ((b :: rest) ++ l2) =
        match attemptBlock ne b with
        | some r => some r
        | none => searchBlocks ne (rest ++ l2) := rfl
    have hr : searchBlocks ne (b :: rest) =
        match attemptBlock ne b with
        | some r => some r
        | none => searchBlocks ne rest := rfl
    rw [hl, hr]
    cases attemptBlock ne b with
    | some r => rfl
    | none => exact ih l2

theorem searchBlocks_none_of_all {ne : List String} :
    ∀ (l : List Nat), (∀ x ∈ l, attemptBlock ne x = none) →
    searchBlocks ne l = none := by
  intro l
  induction l with
  | nil => intro _; rfl
  | cons b rest ih =>
    intro h
    unfold searchBlocks
    rw [h b (List.mem_cons_self b rest)]
    exact ih (fun x hx => h x (List.mem_cons_of_mem b hx))

/-- C4: on every sequence that reaches the repeating-block rule (the
input is non-empty, at least two values are non-blank, and not all
non-blank values are equal), if `b0` is the smallest block size in
`1..min(10, ⌊nonBlankCount/2⌋)` for which the chunk partition has at
least 2 complete chunks and at least 70% of the chunks match the first
chunk's template, then `detect` returns the `repeating` result for `b0`,
with every non-matching chunk recorded as a break entry. -/
theorem detect_repeating_least (values : List (Option String)) (b0 : Nat)
    (hvne : values ≠ [])
    (hlen : 2 ≤ (nonEmptyOf values).length)
    (hnu : ((nonEmptyOf values).all
      (fun v => v = (nonEmptyOf values).headD "")) = false)
    (hmem : b0 ∈ List.range' 1 (min 10 ((nonEmptyOf values).length / 2)))
    (hok : okSpec b0 (nonEmptyOf values))
    (hleast : ∀ b ∈ List.range' 1 (min 10 ((nonEmptyOf values).length / 2)),
      b < b0 → ¬ okSpec b (nonEmptyOf values)) :
    detect_pattern values = some (repeatingSpec b0 (nonEmptyOf values)) := by
  unfold detect_pattern
  rw [if_neg hvne]
  unfold detectNonEmpty
  rw [if_neg (by omega), if_neg (by omega)]
  rw [if_neg (by rw [hnu]; simp)]
  set k := min 10 ((nonEmptyOf values).length / 2) with hk
  obtain ⟨hb1, hblt⟩ := List.mem_range'_1.1 hmem
  have hsplit : List.range' 1 (b0 - 1) ++ List.range' b0 (k - (b0 - 1)) =
      List.range' 1 k := by
    have := List.range'_append 1 (b0 - 1) (k - (b0 - 1)) 1
    simp only [Nat.one_mul] at this
    have h1 : 1 + (b0 - 1) = b0 := by omega
    rw [h1] at this
    have h2 : k - (b0 - 1) + (b0 - 1) = k := by omega
    rw [h2] at this
    exact this
  rw [← hsplit, searchBlocks_append]
  rw [searchBlocks_none_of_all (List.range' 1 (b0 - 1)) (by
    intro x hx
    obtain ⟨hx1, hx2⟩ := List.mem_range'_1.1 hx
    have hxk : x ∈ List.range' 1 k := List.mem_range'_1.2 ⟨hx1, by omega⟩
    exact attemptBlock_of_not_okSpec hx1 (hleast x hxk (by omega)))]
  have htailn : k - (b0 - 1) = (k - b0) + 1 := by omega
  rw [htailn, List.range'_succ]
  have hstep : searchBlocks (nonEmptyOf values)
      (b0 :: List.range' (b0 + 1) (k - b0)) =
        match attemptBlock (nonEmptyOf values) b0 with
        | some r => some r
        | none => searchBlocks (nonEmptyOf values) (List.range' (b0 + 1) (k - b0)) := rfl
  rw [hstep, attemptBlock_of_okSpec hb1 hok]

/-- Witness for C4: on the clean repeating sequence, block size 2 is
accepted, block size 1 is rejected, and `detect` returns the spec-side
`repeating` result for 2. -/
theorem detect_repeating_least_witness :
    okSpec 2 (nonEmptyOf qrInput) ∧
    detect_pattern qrInput = some (repeatingSpec 2 (nonEmptyOf qrInput)) :=
  ⟨by decide,
    detect_repeating_least qrInput 2 (by decide) (by decide) (by decide)
      (by decide) (by decide) (by decide)⟩

/-- Witness for C9: the first range of the concrete column analysis is
well-formed and ends strictly before the second one starts. -/
theorem analyze_formula_ranges_wf_witness :
    WFRange ⟨1, 4, "={REL}", "=A2", 4, ["=A2", "=A3", "=A4"]⟩ ∧
    (FormulaRange.mk 1 4 "={REL}" "=A2" 4 ["=A2", "=A3", "=A4"]).end_row <
      (FormulaRange.mk 6 7 "={ABS}" "=$B$1" 2 ["=$B$1", "=$B$2"]).start_row := by
  have h := analyze_formula_ranges_wf flowGrid 0 1
  have hr : analyze_formula_ranges flowGrid 0 1 =
      [⟨1, 4, "={REL}", "=A2", 4, ["=A2", "=A3", "=A4"]⟩,
       ⟨6, 7, "={ABS}", "=$B$1", 2, ["=$B$1", "=$B$2"]⟩] := by decide
  have h2 := h.2
  rw [hr] at h2
  exact ⟨h.1 _ (by rw [hr]; simp), (List.chain'_cons.1 h2).1⟩

/-- Witness for C10: the invariants instantiated on the clean repeating
sequence. -/
theorem detect_repeating_invariants_witness :
    detect_pattern qrInput = some (.repeating 2 ["Q1", "Rev"] 3 6 ["Q1", "Rev"] none) ∧
    (1 ≤ 2 ∧ 2 ≤ 10 ∧ 2 ≤ 3 ∧ 2 * 3 ≤ 6 ∧ 6 = (nonEmptyOf qrInput).length ∧
     10 * (((none : Option (List BreakEntry))).getD []).length ≤ 3 * 3) :=
  ⟨by decide,
    detect_repeating_invariants qrInput 2 3 6 ["Q1", "Rev"] ["Q1", "Rev"] none
      (by decide)⟩

/-! ### Claim C8: idempotence of `normalize_formula`

The key structural facts: every replacement token starts with `{` and
ends with `}`, and the braces (and `_`) belong to none of the character
classes used by the four reference patterns, so no pattern can match
starting inside an inserted token or across its borders, and replacing a
later piece of text can never create a new match earlier. -/

theorem runItems_nil_none {pat : List Item} (h : pat ≠ []) :
    runItems pat [] = none := by
  cases pat with
  | nil => exact absurd rfl h
  | cons it rest => cases it <;> simp [runItems]

theorem runItems_cons_pos {it : Item} {pat : List Item} {l : List Char} {n : Nat}
    (h : runItems (it :: pat) l = some n) : 1 ≤ n := by
  cases it with
  | lit c =>
    cases l with
    | nil => simp [runItems] at h
    | cons a rest =>
      simp only [runItems] at h
      by_cases hac : a = c
      · rw [if_pos hac] at h
        cases hm : runItems pat rest with
        | none => rw [hm] at h; simp at h
        | some m => rw [hm] at h; simp at h; omega
      · rw [if_neg hac] at h; cases h
  | plus p =>
    simp only [runItems] at h
    by_cases hk : (l.takeWhile p).length = 0
    · rw [if_pos hk] at h; cases h
    · rw [if_neg hk] at h
      cases hm : runItems pat (l.drop (l.takeWhile p).length) with
      | none => rw [hm] at h; simp at h
      | some m => rw [hm] at h; simp at h; omega

theorem runItems_pos {pat : List Item} (hpat : pat ≠ []) {l : List Char} {n : Nat}
    (h : runItems pat l = some n) : 1 ≤ n := by
  cases pat with
  | nil => exact absurd rfl hpat
  | cons it rest => exact runItems_cons_pos h

theorem substGo_congr {pat : List Item} {tok : List Char} (hpat : pat ≠ []) :
    ∀ (fuel : Nat) (l : List Char) (fuel' : Nat),
    l.length ≤ fuel → l.length ≤ fuel' →
    substGo pat tok fuel l = substGo pat tok fuel' l := by
  intro fuel
  induction fuel with
  | zero =>
    intro l fuel' hl _
    have h0 : l = [] := List.length_eq_zero.1 (Nat.le_zero.1 hl)
    subst h0
    cases fuel' <;> simp [substGo]
  | succ fuel ih =>
    intro l fuel' hl hl'
    cases l with
    | nil => cases fuel' <;> simp [substGo]
    | cons c cs =>
      cases fuel' with
      | zero => simp at hl'
      | succ fuel'' =>
        cases hr : runItems pat (c :: cs) with
        | some n =>
          have hn : 1 ≤ n := runItems_pos hpat hr
          have hlen : ((c :: cs).drop n).length = cs.length + 1 - n := by
            simp [List.length_drop]
          have hd : ((c :: cs).drop n).length ≤ fuel := by
            simp only [List.length_cons] at hl; omega
          have hd' : ((c :: cs).drop n).length ≤ fuel'' := by
            simp only [List.length_cons] at hl'; omega
          simp only [substGo, hr]
          rw [ih ((c :: cs).drop n) fuel'' hd hd']
        | none =>
          have hd : cs.length ≤ fuel := by
            simp only [List.length_cons] at hl; omega
          have hd' : cs.length ≤ fuel'' := by
            simp only [List.length_cons] at hl'; omega
          simp only [substGo, hr]
          rw [ih cs fuel'' hd hd']

theorem subst_cons {pat : List Item} {tok : List Char} (hpat : pat ≠ [])
    (c : Char) (cs : List Char) :
    subst pat tok (c :: cs) =
      match runItems pat (c :: cs) with
      | some n => tok ++ subst pat tok ((c :: cs).drop n)
      | none => c :: subst pat tok cs := by
  cases hr : runItems pat (c :: cs) with
  | some n =>
    have hn : 1 ≤ n := runItems_pos hpat hr
    have h1 : subst pat tok (c :: cs) =
        tok ++ substGo pat tok cs.length ((c :: cs).drop n) := by
      show substGo pat tok (cs.length + 1) (c :: cs) = _
      simp only [substGo, hr]
    rw [h1]
    simp only [hr]
    unfold subst
    rw [substGo_congr hpat cs.length ((c :: cs).drop n) ((c :: cs).drop n).length
      (by simp only [List.length_drop, List.length_cons]; omega) (Nat.le_refl _)]
  | none =>
    have h1 : subst pat tok (c :: cs) = c :: substGo pat tok cs.length cs := by
      show substGo pat tok (cs.length + 1) (c :: cs) = _
      simp only [substGo, hr]
    rw [h1]
    simp only [hr]
    rfl

/-- No match of `pat` starts at any position of `l`. -/
def FreeOf (pat : List Item) (l : List Char) : Prop :=
  ∀ i, runItems pat (l.drop i) = none

theorem freeOf_nil {pat : List Item} (hpat : pat ≠ []) : FreeOf pat [] := by
  intro i
  simp only [List.drop_nil]
  exact runItems_nil_none hpat

theorem subst_of_free {pat : List Item} {tok : List Char} (hpat : pat ≠ []) :
    ∀ l, FreeOf pat l → subst pat tok l = l := by
  intro l
  induction l with
  | nil => intro _; rfl
  | cons c cs ih =>
    intro hfree
    rw [subst_cons hpat]
    have h0 := hfree 0
    simp only [List.drop_zero] at h0
    have htail : subst pat tok cs = cs := by
      apply ih
      intro i
      have := hfree (i + 1)
      simpa [List.drop_succ_cons] using this
    simp only [h0, htail]

/-- `c` matches no atom of `pat`: neither a literal nor a class. -/
def inertItemB (c : Char) : Item → Bool
  | .lit d => !(c == d)
  | .plus p => !(p c)

def InertFor (c : Char) (pat : List Item) : Prop :=
  pat.all (inertItemB c) = true

instance (c : Char) (pat : List Item) : Decidable (InertFor c pat) := by
  unfold InertFor
  infer_instance

theorem inert_lit {c d : Char} {pat : List Item}
    (h : InertFor c (.lit d :: pat)) : c ≠ d ∧ InertFor c pat := by
  unfold InertFor at h ⊢
  rw [List.all_cons] at h
  simp only [inertItemB, Bool.and_eq_true, Bool.not_eq_true'] at h
  exact ⟨by simpa using h.1, h.2⟩

theorem inert_plus {c : Char} {p : Char → Bool} {pat : List Item}
    (h : InertFor c (.plus p :: pat)) : p c = false ∧ InertFor c pat := by
  unfold InertFor at h ⊢
  rw [List.all_cons] at h
  simp only [inertItemB, Bool.and_eq_true, Bool.not_eq_true'] at h
  exact h

theorem takeWhile_append_inert {p : Char → Bool} {c : Char} (hpc : p c = false) :
    ∀ (x y : List Char), (x ++ c :: y).takeWhile p = x.takeWhile p := by
  intro x y
  induction x with
  | nil => simp [List.takeWhile_cons, hpc]
  | cons a x ih =>
    by_cases hpa : p a
    · simp [List.takeWhile_cons, hpa, ih]
    · simp [List.takeWhile_cons, hpa]

theorem takeWhile_append_stop {p : Char → Bool} :
    ∀ {x : List Char} (z : List Char),
    (x.takeWhile p).length < x.length → (x ++ z).takeWhile p = x.takeWhile p := by
  intro x
  induction x with
  | nil => intro z h; simp at h
  | cons a x ih =>
    intro z h
    by_cases hpa : p a
    · have hcons : (a :: x).takeWhile p = a :: x.takeWhile p := by
        simp [List.takeWhile_cons, hpa]
      rw [hcons] at h
      simp only [List.length_cons] at h
      have hlt : (x.takeWhile p).length < x.length := by omega
      show ((a :: x) ++ z).takeWhile p = (a :: x).takeWhile p
      rw [List.cons_append, List.takeWhile_cons, if_pos hpa, ih z hlt, hcons]
    · simp [List.takeWhile_cons, hpa]

/-- A match cannot begin with an opaque character. -/
theorem runItems_inert_head {pat : List Item} (hpat : pat ≠ []) {c : Char}
    (hop : InertFor c pat) (w : List Char) :
    runItems pat (c :: w) = none := by
  cases pat with
  | nil => exact absurd rfl hpat
  | cons it rest =>
    cases it with
    | lit d =>
      obtain ⟨hcd, _⟩ := inert_lit hop
      simp only [runItems]
      rw [if_neg hcd]
    | plus p =>
      obtain ⟨hpc, _⟩ := inert_plus hop
      simp only [runItems, List.takeWhile_cons, hpc]
      simp

/-- Behind an opaque character, the run's outcome does not depend on
what follows that character. -/
theorem runItems_inert_indep {c : Char} :
    ∀ (pat : List Item), InertFor c pat →
    ∀ (x y y' : List Char),
    runItems pat (x ++ c :: y) = runItems pat (x ++ c :: y') := by
  intro pat
  induction pat with
  | nil => intro _ x y y'; rfl
  | cons it rest ih =>
    intro hop x y y'
    cases it with
    | lit d =>
      obtain ⟨hcd, hrest⟩ := inert_lit hop
      cases x with
      | nil =>
        simp only [List.nil_append, runItems]
        rw [if_neg hcd, if_neg hcd]
      | cons a x' =>
        simp only [List.cons_append, runItems]
        by_cases had : a = d
        · rw [if_pos had, if_pos had, ih hrest x' y y']
        · rw [if_neg had, if_neg had]
    | plus p =>
      obtain ⟨hpc, hrest⟩ := inert_plus hop
      simp only [runItems]
      rw [takeWhile_append_inert hpc x y, takeWhile_append_inert hpc x y']
      by_cases hk : (x.takeWhile p).length = 0
      · simp only [if_pos hk]
      · simp only [if_neg hk]
        have hkle : (x.takeWhile p).length ≤ x.length :=
          (List.takeWhile_sublist p).length_le
        rw [List.drop_append_of_le_length hkle, List.drop_append_of_le_length hkle]
        rw [ih hrest (x.drop (x.takeWhile p).length) y y']

/-- A successful match before an opaque boundary also succeeds when the
boundary and everything after it are replaced by anything else. -/
theorem runItems_inert_success {c : Char} :
    ∀ (pat : List Item), InertFor c pat →
    ∀ (x y z : List Char) (n : Nat),
    runItems pat (x ++ c :: y) = some n →
    ∃ m, runItems pat (x ++ z) = some m := by
  intro pat
  induction pat with
  | nil => intro _ x y z n _; exact ⟨0, rfl⟩
  | cons it rest ih =>
    intro hop x y z n h
    cases it with
    | lit d =>
      obtain ⟨hcd, hrest⟩ := inert_lit hop
      cases x with
      | nil =>
        simp only [List.nil_append, runItems] at h
        rw [if_neg hcd] at h
        cases h
      | cons a x' =>
        simp only [List.cons_append, runItems] at h ⊢
        by_cases had : a = d
        · rw [if_pos had] at h
          cases hm : runItems rest (x' ++ c :: y) with
          | none => rw [hm] at h; cases h
          | some n' =>
            obtain ⟨m, hm'⟩ := ih hrest x' y z n' hm
            rw [if_pos had, hm']
            exact ⟨m + 1, rfl⟩
        · rw [if_neg had] at h; cases h
    | plus p =>
      obtain ⟨hpc, hrest⟩ := inert_plus hop
      simp only [runItems] at h ⊢
      rw [takeWhile_append_inert hpc x y] at h
      by_cases hk : (x.takeWhile p).length = 0
      · rw [if_pos hk] at h; cases h
      · rw [if_neg hk] at h
        have hkle : (x.takeWhile p).length ≤ x.length :=
          (List.takeWhile_sublist p).length_le
        rw [List.drop_append_of_le_length hkle] at h
        by_cases hfull : (x.takeWhile p).length = x.length
        · -- the class run reaches the boundary: `rest` must be empty,
          -- because its first atom would have to accept the opaque `c`
          have hxd : x.drop (x.takeWhile p).length = [] := by
            rw [hfull]; simp
          rw [hxd] at h
          cases rest with
          | nil =>
            -- on the `z` side the run consumes the whole class run in `x`
            -- and possibly more of `z`
            have hxne : x ≠ [] := by
              intro hcon
              rw [hcon] at hk
              simp at hk
            have htw : (x ++ z).takeWhile p = x ++ z.takeWhile p := by
              rw [List.takeWhile_append, if_pos hfull]
            have hk' : ¬((x ++ z).takeWhile p).length = 0 := by
              rw [htw]
              simp only [List.length_append]
              intro hcon
              exact hxne (List.length_eq_zero.1 (by omega))
            refine ⟨0 + ((x ++ z).takeWhile p).length, ?_⟩
            simp only [runItems]
            rw [if_neg hk']
            rfl
          | cons it' rest' =>
            simp only [List.nil_append] at h
            rw [runItems_inert_head (by simp) hrest y] at h
            simp at h
        · -- the class run stops strictly inside `x`
          have hlt : (x.takeWhile p).length < x.length := by omega
          cases hm : runItems rest ((x.drop (x.takeWhile p).length) ++ c :: y) with
          | none => rw [hm] at h; cases h
          | some n' =>
            obtain ⟨m, hm'⟩ := ih hrest (x.drop (x.takeWhile p).length) y z n' hm
            rw [takeWhile_append_stop z hlt, if_neg hk,
              List.drop_append_of_le_length hkle, hm']
            exact ⟨m + (x.takeWhile p).length, rfl⟩

/-- If no match starts at a position of the original text, none starts
there after a later piece is replaced by an opaque-headed token. -/
theorem runItems_none_extend {pat : List Item} {c : Char} (hop : InertFor c pat)
    {x y z : List Char} (h : runItems pat (x ++ y) = none) :
    runItems pat (x ++ c :: z) = none := by
  cases hr : runItems pat (x ++ c :: z) with
  | none => rfl
  | some n =>
    obtain ⟨m, hm⟩ := runItems_inert_success pat hop x z y n hr
    rw [h] at hm
    cases hm

/-- No match of `pat` starts inside `tok`, whatever follows it. -/
def TokSafe (pat : List Item) (tok : List Char) : Prop :=
  ∀ t, t ≠ [] → t <:+ tok → ∀ rest, runItems pat (t ++ rest) = none

/-- `TokSafe` reduces to finitely many checks when the token ends in the
opaque `}`: by `runItems_inert_indep` nothing past the final `}` can
influence a match that starts inside the token. -/
theorem tokSafe_of_checks {pat : List Item} {tok : List Char}
    (hop : InertFor '}' pat)
    (hlast : tok.getLast? = some '}')
    (hchecks : ∀ t ∈ tok.tails, t ≠ [] → runItems pat t = none) :
    TokSafe pat tok := by
  intro t ht hsuf rest
  have htl : t.getLast? = some '}' := by
    obtain ⟨pre, hpre⟩ := hsuf
    rw [← hpre] at hlast
    rwa [List.getLast?_append_of_ne_nil pre ht] at hlast
  have hget : t.getLast ht = '}' := by
    have := List.getLast?_eq_getLast t ht
    rw [this] at htl
    exact Option.some.inj htl
  have hsplit2 : t.dropLast ++ ['}'] = t := by
    rw [← hget]
    exact List.dropLast_append_getLast ht
  have e1 : t ++ rest = t.dropLast ++ '}' :: rest := by
    rw [← hsplit2]
    simp
  rw [e1, runItems_inert_indep pat hop t.dropLast rest []]
  have e2 : t.dropLast ++ '}' :: ([] : List Char) = t := hsplit2
  rw [e2]
  exact hchecks t ((List.mem_tails t tok).2 hsuf) ht

/-- A pass output is either the unchanged input or agrees with the input
on a prefix and then starts a token with `{`. -/
theorem subst_split {s : List Item} {tok : List Char} (hs : s ≠ [])
    (htok : tok.head? = some '{') :
    ∀ (N : Nat) (l : List Char), l.length ≤ N →
    subst s tok l = l ∨
      ∃ x y w, l = x ++ y ∧ subst s tok l = x ++ '{' :: w := by
  obtain ⟨tk, rfl⟩ : ∃ tk, tok = '{' :: tk := by
    cases tok with
    | nil => simp at htok
    | cons c0 tk =>
      have : c0 = '{' := by simpa using htok
      exact ⟨tk, by rw [this]⟩
  intro N
  induction N with
  | zero =>
    intro l hl
    have h0 : l = [] := List.length_eq_zero.1 (Nat.le_zero.1 hl)
    subst h0
    left
    rfl
  | succ N ih =>
    intro l hl
    cases l with
    | nil => left; rfl
    | cons c cs =>
      cases hr : runItems s (c :: cs) with
      | some n =>
        right
        refine ⟨[], c :: cs, tk ++ subst s ('{' :: tk) ((c :: cs).drop n), rfl, ?_⟩
        rw [subst_cons hs]
        simp only [hr]
        rfl
      | none =>
        rcases ih cs (by simp only [List.length_cons] at hl; omega) with heq2 | ⟨x, y, w, hxy, hw⟩
        · left
          rw [subst_cons hs]
          simp only [hr, heq2]
        · right
          refine ⟨c :: x, y, w, by rw [hxy]; rfl, ?_⟩
          rw [subst_cons hs]
          simp only [hr, hw]
          rfl

/-- Freedom extends over a prepended safe token. -/
theorem freeOf_append_tok {m : List Item} {tok : List Char}
    (hts : TokSafe m tok) {X : List Char} (hX : FreeOf m X) :
    FreeOf m (tok ++ X) := by
  intro i
  by_cases hi : i < tok.length
  · rw [List.drop_append_of_le_length (by omega)]
    have hne : tok.drop i ≠ [] := by
      intro hcon
      have := congrArg List.length hcon
      simp only [List.length_drop, List.length_nil] at this
      omega
    exact hts (tok.drop i) hne (List.drop_suffix i tok) X
  · have hi' : i = tok.length + (i - tok.length) := by omega
    rw [hi', List.drop_append]
    exact hX (i - tok.length)

/-- Core freedom lemma: if every position of `l` at which `s` fails is
also a position at which `m` fails, then after the `s`-pass with a
brace-wrapped token that is safe for `m`, no `m`-match starts anywhere.
Instantiated with `m = s` it says a pass leaves no match of its own
pattern; with the freedom of an earlier pass as `H` it says later passes
preserve that freedom. -/
theorem freeOf_subst {m s : List Item} {tok : List Char}
    (hm : m ≠ []) (hs : s ≠ [])
    (hopq : InertFor '{' m) (htok : tok.head? = some '{')
    (hts : TokSafe m tok) :
    ∀ (N : Nat) (l : List Char), l.length ≤ N →
    (∀ i, runItems s (l.drop i) = none → runItems m (l.drop i) = none) →
    FreeOf m (subst s tok l) := by
  intro N
  induction N with
  | zero =>
    intro l hl _
    have h0 : l = [] := List.length_eq_zero.1 (Nat.le_zero.1 hl)
    subst h0
    exact freeOf_nil hm
  | succ N ih =>
    intro l hl H
    cases l with
    | nil => exact freeOf_nil hm
    | cons c cs =>
      cases hr : runItems s (c :: cs) with
      | some n =>
        have hn : 1 ≤ n := runItems_pos hs hr
        have hXfree : FreeOf m (subst s tok ((c :: cs).drop n)) := by
          apply ih ((c :: cs).drop n)
            (by simp only [List.length_drop, List.length_cons] at hl ⊢; omega)
          intro i hi
          have hdd : ((c :: cs).drop n).drop i = (c :: cs).drop (n + i) :=
            List.drop_drop i n (c :: cs)
          rw [hdd] at hi ⊢
          exact H (n + i) hi
        have heq : subst s tok (c :: cs) = tok ++ subst s tok ((c :: cs).drop n) := by
          rw [subst_cons hs]
          simp only [hr]
        rw [heq]
        exact freeOf_append_tok hts hXfree
      | none =>
        have hYfree : FreeOf m (subst s tok cs) := by
          apply ih cs (by simp only [List.length_cons] at hl; omega)
          intro i hi
          have hH := H (i + 1)
          simp only [List.drop_succ_cons] at hH
          exact hH hi
        have heq : subst s tok (c :: cs) = c :: subst s tok cs := by
          rw [subst_cons hs]
          simp only [hr]
        rw [heq]
        intro i
        cases i with
        | zero =>
          simp only [List.drop_zero]
          have hm0 : runItems m (c :: cs) = none := H 0 hr
          rcases subst_split hs htok cs.length cs (Nat.le_refl _) with
            heq2 | ⟨x, y, w, hxy, hw⟩
          · rw [heq2]
            exact hm0
          · rw [hw]
            have hm0' : runItems m ((c :: x) ++ y) = none := by
              rw [hxy] at hm0
              simpa using hm0
            have hx := runItems_none_extend hopq (x := c :: x) (y := y) (z := w) hm0'
            simpa using hx
        | succ i =>
          simp only [List.drop_succ_cons]
          exact hYfree i

theorem patAbs_ne : patAbs ≠ [] := by simp [patAbs]
theorem patColAbs_ne : patColAbs ≠ [] := by simp [patColAbs]
theorem patRowAbs_ne : patRowAbs ≠ [] := by simp [patRowAbs]
theorem patRel_ne : patRel ≠ [] := by simp [patRel]

theorem tokSafe_abs_abs : TokSafe patAbs tokAbs :=
  tokSafe_of_checks (by decide) (by decide) (by decide)
theorem tokSafe_abs_colabs : TokSafe patAbs tokColAbs :=
  tokSafe_of_checks (by decide) (by decide) (by decide)
theorem tokSafe_abs_rowabs : TokSafe patAbs tokRowAbs :=
  tokSafe_of_checks (by decide) (by decide) (by decide)
theorem tokSafe_abs_rel : TokSafe patAbs tokRel :=
  tokSafe_of_checks (by decide) (by decide) (by decide)
theorem tokSafe_colabs_colabs : TokSafe patColAbs tokColAbs :=
  tokSafe_of_checks (by decide) (by decide) (by decide)
theorem tokSafe_colabs_rowabs : TokSafe patColAbs tokRowAbs :=
  tokSafe_of_checks (by decide) (by decide) (by decide)
theorem tokSafe_colabs_rel : TokSafe patColAbs tokRel :=
  tokSafe_of_checks (by decide) (by decide) (by decide)
theorem tokSafe_rowabs_rowabs : TokSafe patRowAbs tokRowAbs :=
  tokSafe_of_checks (by decide) (by decide) (by decide)
theorem tokSafe_rowabs_rel : TokSafe patRowAbs tokRel :=
  tokSafe_of_checks (by decide) (by decide) (by decide)
theorem tokSafe_rel_rel : TokSafe patRel tokRel :=
  tokSafe_of_checks (by decide) (by decide) (by decide)

/-- After the four passes no occurrence of any of the four reference
patterns remains: each pass removes its own pattern, and the later
passes cannot reintroduce an earlier one. -/
theorem normChain_free (l : List Char) :
    FreeOf patAbs (normChain l) ∧ FreeOf patColAbs (normChain l) ∧
    FreeOf patRowAbs (normChain l) ∧ FreeOf patRel (normChain l) := by
  show FreeOf patAbs (subst patRel tokRel (subst patRowAbs tokRowAbs
      (subst patColAbs tokColAbs (subst patAbs tokAbs l)))) ∧ _ ∧ _ ∧ _
  set S1 := subst patAbs tokAbs l with hS1
  set S2 := subst patColAbs tokColAbs S1 with hS2
  set S3 := subst patRowAbs tokRowAbs S2 with hS3
  have f1 : FreeOf patAbs S1 :=
    freeOf_subst patAbs_ne patAbs_ne (by decide) (by decide) tokSafe_abs_abs
      l.length l (Nat.le_refl _) (fun i hi => hi)
  have f1b : FreeOf patAbs S2 :=
    freeOf_subst patAbs_ne patColAbs_ne (by decide) (by decide) tokSafe_abs_colabs
      S1.length S1 (Nat.le_refl _) (fun i _ => f1 i)
  have f1c : FreeOf patAbs S3 :=
    freeOf_subst patAbs_ne patRowAbs_ne (by decide) (by decide) tokSafe_abs_rowabs
      S2.length S2 (Nat.le_refl _) (fun i _ => f1b i)
  have f1d : FreeOf patAbs (subst patRel tokRel S3) :=
    freeOf_subst patAbs_ne patRel_ne (by decide) (by decide) tokSafe_abs_rel
      S3.length S3 (Nat.le_refl _) (fun i _ => f1c i)
  have f2 : FreeOf patColAbs S2 :=
    freeOf_subst patColAbs_ne patColAbs_ne (by decide) (by decide) tokSafe_colabs_colabs
      S1.length S1 (Nat.le_refl _) (fun i hi => hi)
  have f2b : FreeOf patColAbs S3 :=
    freeOf_subst patColAbs_ne patRowAbs_ne (by decide) (by decide) tokSafe_colabs_rowabs
      S2.length S2 (Nat.le_refl _) (fun i _ => f2 i)
  have f2c : FreeOf patColAbs (subst patRel tokRel S3) :=
    freeOf_subst patColAbs_ne patRel_ne (by decide) (by decide) tokSafe_colabs_rel
      S3.length S3 (Nat.le_refl _) (fun i _ => f2b i)
  have f3 : FreeOf patRowAbs S3 :=
    freeOf_subst patRowAbs_ne patRowAbs_ne (by decide) (by decide) tokSafe_rowabs_rowabs
      S2.length S2 (Nat.le_refl _) (fun i hi => hi)
  have f3b : FreeOf patRowAbs (subst patRel tokRel S3) :=
    freeOf_subst patRowAbs_ne patRel_ne (by decide) (by decide) tokSafe_rowabs_rel
      S3.length S3 (Nat.le_refl _) (fun i _ => f3 i)
  have f4 : FreeOf patRel (subst patRel tokRel S3) :=
    freeOf_subst patRel_ne patRel_ne (by decide) (by decide) tokSafe_rel_rel
      S3.length S3 (Nat.le_refl _) (fun i hi => hi)
  exact ⟨f1d, f2c, f3b, f4⟩

/-- C8: formula normalization is idempotent — for every formula string,
normalizing twice equals normalizing once, because the four sequential
substitution passes never re-match tokens already replaced by an earlier
pass; concretely `normalize("=$A$1+B2") = "={ABS}+{REL}"` and
`normalize("=A1+$B1") = "={REL}+{COL_ABS}"`. -/
theorem normalize_formula_idem :
    (∀ f : String, normalize_formula (normalize_formula f) = normalize_formula f) ∧
    normalize_formula "=$A$1+B2" = "={ABS}+{REL}" ∧
    normalize_formula "=A1+$B1" = "={REL}+{COL_ABS}" := by
  refine ⟨?_, by decide, by decide⟩
  intro f
  by_cases hf : f = ""
  · rw [hf]
    rfl
  · have hnf : normalize_formula f = ⟨normChain f.data⟩ := by
      simp only [normalize_formula, if_neg hf]
    rw [hnf]
    obtain ⟨f1, f2, f3, f4⟩ := normChain_free f.data
    by_cases hS : (⟨normChain f.data⟩ : String) = ""
    · rw [hS]
      rfl
    · simp only [normalize_formula, if_neg hS]
      show (⟨normChain (normChain f.data)⟩ : String) = ⟨normChain f.data⟩
      have e1 : subst patAbs tokAbs (normChain f.data) = normChain f.data :=
        subst_of_free patAbs_ne _ f1
      have e2 : subst patColAbs tokColAbs (normChain f.data) = normChain f.data :=
        subst_of_free patColAbs_ne _ f2
      have e3 : subst patRowAbs tokRowAbs (normChain f.data) = normChain f.data :=
        subst_of_free patRowAbs_ne _ f3
      have e4 : subst patRel tokRel (normChain f.data) = normChain f.data :=
        subst_of_free patRel_ne _ f4
      have hred : normChain (normChain f.data) = normChain f.data := by
        rw [show normChain (normChain f.data) =
          subst patRel tokRel (subst patRowAbs tokRowAbs
            (subst patColAbs tokColAbs
              (subst patAbs tokAbs (normChain f.data)))) from rfl]
        rw [e1, e2, e3, e4]
      rw [hred]

end SheetStruct
